import Mathlib
set_option maxRecDepth 4000

/-!
Verification of the safereplace repository (Go).

Go strings are byte strings; every file content, pattern, replacement and
path in this development is modelled as a `List Char` (valid UTF-8 contents,
which covers every input the claims are about; codepoint order on `List Char`
agrees with Go's byte-wise string order on valid UTF-8).

Modules embedded, each from its Go source file:
  * `internal/processor/processor.go` : `SubstituteLiteralFile`
  * `internal/diff/diff.go`           : `Diff`, `equalIgnoringSingleTrailingFinalNL`
  * `internal/discovery` (discovery.go): `Discover`, `normalize`, `isRegular`,
    `expandFiles`, `expandGlob`, `expandExt`, `applyExcludes`
  * `internal/apply/apply.go`         : `WriteAtomic`, `uniqueBackupPath`, `copyFile`
  * `internal/cli/run.go`             : `Run` (validation, per-file loop, exit code)

Go standard-library primitives (`os`, `path/filepath`, `strings`) are modelled
by small Lean functions; `filepath.Glob` and `filepath.Match` are taken as
parameters (their outputs are filtered by the repository's own code, which is
what the claims exercise).
-/

deriving instance DecidableEq for Except

namespace SafeReplace

/-- A Go string: a list of characters. -/
abbrev GoStr := List Char

/-- Characters of a Lean string literal, used to write Go string constants. -/
def chars (s : String) : GoStr := s.toList

/-! ## strings: Go `strings` package primitives used by the repository -/

/-- Models `strings.Count(s, pat)` for a non-empty `pat`: the number of
non-overlapping leftmost occurrences of `pat` in `s`.  (The empty-pattern case
of `strings.Count` is never reached: `SubstituteLiteralFile` guards it.) -/
def countOcc (pat s : GoStr) : Nat :=
  if hp : pat = [] then 0
  else
    match s with
    | [] => 0
    | c :: t =>
      if hpre : pat.isPrefixOf (c :: t) then
        1 + countOcc pat ((c :: t).drop pat.length)
      else countOcc pat t
termination_by s.length
decreasing_by
  · have hle : pat.length ≤ (c :: t).length :=
      (List.isPrefixOf_iff_prefix.mp hpre).length_le
    have hppos : 0 < pat.length := List.length_pos.mpr hp
    simp only [List.length_drop]
    simp only [List.length_cons] at hle ⊢
    omega
  · simp

/-- Models `strings.ReplaceAll(s, pat, rep)` for a non-empty `pat`: replaces
every non-overlapping leftmost occurrence of `pat` by `rep`.  (The
empty-pattern case is guarded in `SubstituteLiteralFile`.) -/
def goReplaceAll (pat rep s : GoStr) : GoStr :=
  if hp : pat = [] then s
  else
    match s with
    | [] => []
    | c :: t =>
      if hpre : pat.isPrefixOf (c :: t) then
        rep ++ goReplaceAll pat rep ((c :: t).drop pat.length)
      else c :: goReplaceAll pat rep t
termination_by s.length
decreasing_by
  · have hle : pat.length ≤ (c :: t).length :=
      (List.isPrefixOf_iff_prefix.mp hpre).length_le
    have hppos : 0 < pat.length := List.length_pos.mpr hp
    simp only [List.length_drop]
    simp only [List.length_cons] at hle ⊢
    omega
  · simp

/-! ## internal/processor/processor.go -/

/-- The two failure modes of `SubstituteLiteralFile`: the `os.ReadFile` error
and the `"skipping binary file"` error. -/
inductive ProcErr
  | readErr
  | binaryFile
  deriving DecidableEq, Repr

/-- `processor.Result`. -/
structure ProcResult where
  Before : GoStr
  After : GoStr
  Matches : Nat
  Replacements : Nat
  Changed : Bool
  deriving DecidableEq, Repr

/-- The NUL byte `0x00`. -/
def nul : Char := Char.ofNat 0

/-- `processor.SubstituteLiteralFile`.  The `os.ReadFile` result is passed in
(`none` models a read error); everything after the read is translated from the
source body: binary check on a NUL byte, empty-pattern no-op, zero-match
no-op, then count + replace-all with `Changed := before != after`. -/
def SubstituteLiteralFile (readData : Option GoStr) (pattern repl : GoStr) :
    Except ProcErr ProcResult :=
  match readData with
  | none => .error .readErr
  | some data =>
    if data.contains nul then .error .binaryFile
    else
      let before := data
      if pattern = [] then
        .ok ⟨before, before, 0, 0, false⟩
      else
        let nMatches := countOcc pattern before
        if nMatches = 0 then
          .ok ⟨before, before, 0, 0, false⟩
        else
          let after := goReplaceAll pattern repl before
          .ok ⟨before, after, nMatches, nMatches, before != after⟩

/-! ## internal/diff/diff.go -/

/-- `diff.Options`. -/
structure DiffOptions where
  color : Bool
  context : Nat
  strictEOL : Bool

/-- The newline character. -/
def nlc : Char := '\n'

/-- `strings.HasSuffix(s, "\n")`. -/
def hasFinalNL (s : GoStr) : Bool := s.getLast? = some nlc

/-- `strings.TrimSuffix(s, "\n")`. -/
def trimFinalNL (s : GoStr) : GoStr := if hasFinalNL s then s.dropLast else s

/-- `diff.equalIgnoringSingleTrailingFinalNL`. -/
def equalIgnoringSingleTrailingFinalNL (a b : GoStr) : Bool :=
  if a = b then true
  else if hasFinalNL a && !hasFinalNL b then trimFinalNL a == b
  else if hasFinalNL b && !hasFinalNL a then trimFinalNL b == a
  else false

def ansiReset : GoStr := chars "\x1b[0m"
def ansiRed : GoStr := chars "\x1b[31m"
def ansiGreen : GoStr := chars "\x1b[32m"

/-- The `colorize` closure inside `diff.Diff`. -/
def colorize (color : Bool) (pre line : GoStr) (added : Bool) : GoStr :=
  if !color then pre ++ line
  else if added then ansiGreen ++ pre ++ line ++ ansiReset
  else ansiRed ++ pre ++ line ++ ansiReset

/-- `diff.Diff` (its `error` result is always `nil` in the source, so the
model returns just the preview text and the changed flag).  Mirrors the
source: the lone-trailing-newline special case, the byte-equality check, then
headers plus per-index line comparison over newline-split, padded line lists,
skipping empty sides. -/
def Diff (before after : GoStr) (opts : DiffOptions) : GoStr × Bool :=
  if !opts.strictEOL && equalIgnoringSingleTrailingFinalNL before after then
    ([], false)
  else if before = after then
    ([], false)
  else
    let bl := List.splitOn nlc before
    let al := List.splitOn nlc after
    let mx := max bl.length al.length
    let body := (List.range mx).foldl
      (fun acc i =>
        let br := bl.getD i []
        let ar := al.getD i []
        if br = ar then acc
        else
          acc ++ (if br ≠ [] then colorize opts.color (chars "-") br false ++ [nlc] else [])
              ++ (if ar ≠ [] then colorize opts.color (chars "+") ar true ++ [nlc] else []))
      []
    (chars "--- before\n+++ after\n" ++ body, true)

/-! ## path/filepath primitives (Go standard library, modelled)

Paths are Go strings.  `filepath.Clean` is modelled only where the repository
relies on it (`filepath.Abs(".")`); the paths the claims quantify over are
already clean. -/

def slash : Char := '/'

/-- `filepath.IsAbs`. -/
def isAbs (p : GoStr) : Bool := p.head? = some slash

/-- `filepath.Join(a, b)` for a non-empty `b`. -/
def joinPath (a b : GoStr) : GoStr := a ++ slash :: b

/-- `filepath.Abs(p)` relative to the working directory `cwd`. -/
def absPath (cwd p : GoStr) : GoStr := if isAbs p then p else joinPath cwd p

/-- `filepath.Base` for the non-empty, non-root paths used here. -/
def baseName (p : GoStr) : GoStr := (p.splitOn slash).getLastD p

/-- `filepath.Dir` for the absolute paths used here. -/
def dirName (p : GoStr) : GoStr :=
  List.intercalate [slash] (p.splitOn slash).dropLast

/-- `filepath.Ext`: the suffix of the final path element starting at its final
dot, empty if the final element has no dot. -/
def extOf (p : GoStr) : GoStr :=
  let b := baseName p
  if '.' ∈ b then '.' :: (b.reverse.takeWhile (· ≠ '.')).reverse else []

/-- `filepath.Rel(root, p)` for the root-prefixed paths used here. -/
def relPath (root p : GoStr) : GoStr :=
  if (root ++ [slash]).isPrefixOf p then p.drop (root.length + 1) else p

/-- `strings.TrimPrefix(s, ".")`. -/
def trimDotPrefix (s : GoStr) : GoStr := if s.head? = some '.' then s.tail else s

/-- ASCII lower-casing of one character (`strings.ToLower` on the ASCII
strings the claims are about). -/
def lowerChar (c : Char) : Char :=
  if 'A' ≤ c ∧ c ≤ 'Z' then Char.ofNat (c.toNat + 32) else c

/-- `strings.ToLower` on ASCII strings. -/
def lowerStr (s : GoStr) : GoStr := s.map lowerChar

/-! ## internal/discovery (discovery.go)

The file system visible to discovery is a finite association list from
absolute path to entry; `lstatD` models `os.Lstat` on it.  `filepath.Glob`
and `filepath.Match` are parameters (`globFn`, `matchFn`): their results are
filtered and combined by the repository's own code, which is what the claims
are about. -/

/-- What `os.Lstat` reports about a path: a regular file, a directory, or a
symbolic link (the link itself, not its target). -/
inductive FType
  | regular
  | dir
  | symlink
  deriving DecidableEq, Repr

/-- One file-system entry: its type, content and permission bits. -/
structure Entry where
  ftype : FType
  content : GoStr
  mode : Nat
  deriving DecidableEq, Repr

/-- A finite file system: an association list from path to entry. -/
abbrev DFS := List (GoStr × Entry)

/-- `os.Lstat`. -/
def lstatD (fs : DFS) (p : GoStr) : Option Entry :=
  (fs.find? (fun pe => pe.1 == p)).map (·.2)

/-- `discovery.Selector`. -/
structure Selector where
  Glob : GoStr
  Ext : GoStr
  Files : List GoStr
  Exclude : List GoStr

/-- `discovery.isRegular`: `Lstat` must succeed, the mode must not have the
symlink bit, and the mode must be regular. -/
def isRegular (fs : DFS) (p : GoStr) : Bool :=
  match lstatD fs p with
  | none => false
  | some e => !(e.ftype == .symlink) && (e.ftype == .regular)

/-- `discovery.normalize`: empty root means `"."`; the root is made absolute;
the extension loses one leading dot.  (`filepath.Abs` cannot fail here.) -/
def normalizeSel (cwd root : GoStr) (sel : Selector) : GoStr × Selector :=
  let root' := if root = [] then chars "." else root
  let absRoot :=
    if isAbs root' then root'
    else if root' = chars "." then cwd
    else joinPath cwd root'
  (absRoot, ⟨sel.Glob, trimDotPrefix sel.Ext, sel.Files, sel.Exclude⟩)

/-- `discovery.toAbsUnderRoot`. -/
def toAbsUnderRoot (cwd root p : GoStr) : GoStr :=
  absPath cwd (if isAbs p then p else joinPath root p)

/-- `discovery.expandFiles`: nonexistent or non-regular entries are silently
dropped.  (The only errors the source can record here come from
`filepath.Abs`, which cannot fail in the model.) -/
def expandFiles (fs : DFS) (cwd root : GoStr) (files : List GoStr) : List GoStr :=
  files.filterMap fun f =>
    let abs := toAbsUnderRoot cwd root f
    if isRegular fs abs then some abs else none

/-- `discovery.expandGlob`: the pattern is rooted if relative, a malformed
pattern (`globFn` returns `none`) records an error and aborts only this
branch, and matches are filtered to regular files and made absolute. -/
def expandGlob (fs : DFS) (globFn : GoStr → Option (List GoStr))
    (cwd root pattern : GoStr) : List GoStr × List GoStr :=
  let pat := if isAbs pattern then pattern else joinPath root pattern
  match globFn pat with
  | none => ([], [chars "glob: syntax error in pattern"])
  | some ms =>
    (ms.filterMap fun m => if isRegular fs m then some (absPath cwd m) else none, [])

/-- `discovery.expandExt`: a `filepath.WalkDir` from the root (every entry at
or below the root), keeping regular directory entries whose extension,
stripped of its leading dot, equals the lower-cased target case-insensitively
(`strings.EqualFold` on ASCII is equality after lower-casing). -/
def expandExt (fs : DFS) (cwd root ext : GoStr) : List GoStr :=
  let target := lowerStr (trimDotPrefix ext)
  fs.filterMap fun pe =>
    if (pe.1 == root || (root ++ [slash]).isPrefixOf pe.1)
        && (pe.2.ftype == .regular)
        && (lowerStr (trimDotPrefix (extOf pe.1)) == lowerStr target)
    then some (absPath cwd pe.1) else none

/-- `discovery.applyExcludes` (with `discovery.match` folded in: a malformed
pattern is a non-match, which `matchFn` models by returning `false`). -/
def applyExcludes (matchFn : GoStr → GoStr → Bool) (root : GoStr)
    (paths excludes : List GoStr) : List GoStr :=
  paths.filter fun p =>
    !(excludes.any fun ex =>
      matchFn ex (relPath root p) || matchFn ex (baseName p) ||
        (isAbs ex && matchFn ex p))

/-- `discovery.Discover`: normalize, fail fast on an empty selector, union
the three expansion mechanisms keyed by absolute path (a set, modelled by
`dedup`), filter excludes, sort. -/
def Discover (cwd : GoStr) (globFn : GoStr → Option (List GoStr))
    (matchFn : GoStr → GoStr → Bool) (root : GoStr) (sel : Selector)
    (fs : DFS) : Except GoStr (List GoStr × List GoStr) :=
  let norm := normalizeSel cwd root sel
  let normRoot := norm.1
  let normSel := norm.2
  if normSel.Glob = [] ∧ normSel.Ext = [] ∧ normSel.Files = [] then
    .error (chars "discovery: at least one of --glob, --ext or --files must be provided")
  else
    let filesOut := if normSel.Files ≠ [] then expandFiles fs cwd normRoot normSel.Files else []
    let globRes := if normSel.Glob ≠ [] then expandGlob fs globFn cwd normRoot normSel.Glob else ([], [])
    let extOut := if normSel.Ext ≠ [] then expandExt fs cwd normRoot normSel.Ext else []
    let all := (filesOut ++ globRes.1 ++ extOut).dedup
    let kept :=
      if normSel.Exclude ≠ [] ∧ all ≠ [] then applyExcludes matchFn normRoot all normSel.Exclude
      else all
    .ok (kept.insertionSort (· ≤ ·), globRes.2)

/-- The sample file system for the discovery witnesses: a regular file, a
symbolic link and a directory, all with the target extension, plus a regular
file with the extension in upper case. -/
def fsC2 : DFS :=
  [(chars "/r/a.txt", ⟨FType.regular, chars "foo", 420⟩),
   (chars "/r/l.txt", ⟨FType.symlink, [], 420⟩),
   (chars "/r/d.txt", ⟨FType.dir, [], 493⟩),
   (chars "/r/b.TXT", ⟨FType.regular, [], 420⟩)]

/-- The glob used by the discovery witnesses: it matches the symlink and the
regular file (which other mechanisms also match). -/
def globFnC2 : GoStr → Option (List GoStr) :=
  fun _ => some [chars "/r/l.txt", chars "/r/a.txt"]

/-! ## internal/apply/apply.go

The apply module sees the file system through `os.Stat`, `os.Lstat`,
`os.CreateTemp`, file writes and `os.Rename`; it is modelled as a function
from path to entry so that arbitrary (also very full) file systems can be
described.  Each fallible OS primitive can be told to fail through a
`Faults` record, which is how "failure at stage X" is quantified over.
`os.CreateTemp` is modelled by passing in the fresh name it returns
(`tmpName`); its contract — the name did not exist when it was created,
hence differs from the target and from the just-written backup — appears as
hypotheses of the theorems. -/

/-- The file system as the apply module sees it. -/
abbrev AFS := GoStr → Option Entry

/-- Creating or replacing the entry at one path. -/
def fsInsert (fs : AFS) (p : GoStr) (e : Entry) : AFS :=
  fun q => if q = p then some e else fs q

/-- Removing the entry at one path. -/
def fsErase (fs : AFS) (p : GoStr) : AFS :=
  fun q => if q = p then none else fs q

/-- `apply.Options`. -/
structure AOptions where
  Backup : Bool
  BackupSuffix : GoStr

/-- The failure stages of `WriteAtomic`, one per distinct error message in
the source: `"apply: stat: %w"`, `"apply: backup: …"` (either the
probe-exhaustion message of `uniqueBackupPath` or a wrapped `copyFile`
error), `"apply: temp: %w"`, `"apply: write temp: %w"`,
`"apply: chmod temp: %w"`, `"apply: fsync temp: %w"`,
`"apply: close temp: %w"`, `"apply: rename: %w"`. -/
inductive ApplyErr
  | statErr
  | backupErr
  | tempErr
  | writeTempErr
  | chmodTempErr
  | fsyncTempErr
  | closeTempErr
  | renameErr
  deriving DecidableEq, Repr, Fintype

/-- The stage-identifying prefix of each `WriteAtomic` error message. -/
def applyErrMsg : ApplyErr → GoStr
  | .statErr => chars "apply: stat: "
  | .backupErr => chars "apply: backup: "
  | .tempErr => chars "apply: temp: "
  | .writeTempErr => chars "apply: write temp: "
  | .chmodTempErr => chars "apply: chmod temp: "
  | .fsyncTempErr => chars "apply: fsync temp: "
  | .closeTempErr => chars "apply: close temp: "
  | .renameErr => chars "apply: rename: "

/-- Fault injection for the fallible primitives `WriteAtomic` uses, in
source order.  For the two data-writing steps, `some part` means the call
fails after writing `part`. -/
structure Faults where
  statFail : Bool
  copyFail : Option GoStr
  tempCreateFail : Bool
  writeFail : Option GoStr
  chmodFail : Bool
  syncFail : Bool
  closeFail : Bool
  renameFail : Bool

/-- The fault-free execution. -/
def noFaults : Faults := ⟨false, none, false, none, false, false, false, false⟩

/-- `apply.uniqueBackupPath`: `dir/base+suffix` when that name is free,
otherwise the first free `dir/base+suffix.i` for `i` from 1 to 999, and the
`"too many existing backups"` error when none is free. -/
def uniqueBackupPath (fs : AFS) (dir base suffix : GoStr) :
    Except ApplyErr GoStr :=
  let cand := joinPath dir (base ++ suffix)
  if fs cand = none then .ok cand
  else
    match (List.range 999).findSome? (fun j =>
      let p := joinPath dir (base ++ suffix ++ '.' :: chars (toString (j + 1)))
      if fs p = none then some p else none) with
    | some p => .ok p
    | none => .error .backupErr

/-- `apply.copyFile`: opens `src`, creates/truncates `dst` with `mode`,
copies and syncs.  A failure (`f.copyFail = some part`) may leave any prefix
of the data at `dst`. -/
def copyFile (fs : AFS) (src dst : GoStr) (mode : Nat) (f : Faults) :
    Except ApplyErr Unit × AFS :=
  match fs src with
  | none => (.error .backupErr, fs)
  | some e =>
    match f.copyFail with
    | some part => (.error .backupErr, fsInsert fs dst ⟨.regular, part, mode⟩)
    | none => (.ok (), fsInsert fs dst ⟨.regular, e.content, mode⟩)

/-- The suffix actually used: `".bak"` when `BackupSuffix` is empty. -/
def defaultedSuffix (opts : AOptions) : GoStr :=
  if opts.BackupSuffix = [] then chars ".bak" else opts.BackupSuffix

/-- Step 2 of `WriteAtomic`: the optional backup (choose a unique name, copy
the original content and mode there). -/
def backupPhase (fs : AFS) (dir base path : GoStr) (mode : Nat)
    (opts : AOptions) (f : Faults) : Except ApplyErr Unit × AFS :=
  if opts.Backup then
    match uniqueBackupPath fs dir base (defaultedSuffix opts) with
    | .error e => (.error e, fs)
    | .ok bp => copyFile fs path bp mode f
  else (.ok (), fs)

/-- `apply.WriteAtomic`: stat the target (must exist; mode preserved),
optional backup, create a temp file in the same directory (`tmpName`, mode
0600), write the data, chmod to the original mode, fsync, close, and
atomically rename over the target; on any failure after the temp file was
created, the deferred `os.Remove` deletes it.  The directory fsync of step 5
ignores its error and does not change the modelled state. -/
def WriteAtomic (fs : AFS) (path data : GoStr) (opts : AOptions) (f : Faults)
    (tmpName : GoStr) : Except ApplyErr Unit × AFS :=
  match fs path, f.statFail with
  | none, _ => (.error .statErr, fs)
  | some _, true => (.error .statErr, fs)
  | some orig, false =>
    let mode := orig.mode
    let dir := dirName path
    let base := baseName path
    match backupPhase fs dir base path mode opts f with
    | (.error e, fs₁) => (.error e, fs₁)
    | (.ok _, fs₁) =>
      if f.tempCreateFail then (.error .tempErr, fs₁)
      else
        let fs₂ := fsInsert fs₁ tmpName ⟨.regular, [], 384⟩
        match f.writeFail with
        | some part =>
          (.error .writeTempErr,
            fsErase (fsInsert fs₂ tmpName ⟨.regular, part, 384⟩) tmpName)
        | none =>
          let fs₃ := fsInsert fs₂ tmpName ⟨.regular, data, 384⟩
          if f.chmodFail then (.error .chmodTempErr, fsErase fs₃ tmpName)
          else
            let fs₄ := fsInsert fs₃ tmpName ⟨.regular, data, mode⟩
            if f.syncFail then (.error .fsyncTempErr, fsErase fs₄ tmpName)
            else if f.closeFail then (.error .closeTempErr, fsErase fs₄ tmpName)
            else if f.renameFail then (.error .renameErr, fsErase fs₄ tmpName)
            else (.ok (), fsInsert (fsErase fs₄ tmpName) path ⟨.regular, data, mode⟩)

/-- Witness file system for the apply claims: one regular file `/d/f`. -/
def fsW : AFS :=
  fun q => if q = chars "/d/f" then some ⟨.regular, chars "old", 420⟩ else none

/-- A file system in which every name is taken. -/
def fsAll : AFS := fun _ => some ⟨.regular, [], 420⟩

/-- Fault injection making only the final rename fail. -/
def faultsRename : Faults := ⟨false, none, false, none, false, false, false, true⟩

/-- First backed-up write of the consecutive-writes scenario. -/
def firstWriteC5 : Except ApplyErr Unit × AFS :=
  WriteAtomic fsW (chars "/d/f") (chars "new") ⟨true, []⟩ noFaults (chars "/d/f.tmp-1")

/-- Second backed-up write of the consecutive-writes scenario, on the file
system the first write produced. -/
def secondWriteC5 : Except ApplyErr Unit × AFS :=
  WriteAtomic firstWriteC5.2 (chars "/d/f") (chars "kew") ⟨true, []⟩ noFaults
    (chars "/d/f.tmp-2")

/-! ## internal/cli/run.go

`Run` is modelled from `parseArgs`'s validation onwards (the pflag parse is
the out-of-scope collaborator producing `Config`).  Standard output and
standard error are lists of the chunks written to them, oldest first.  The
per-file loop is `processOne` folded over the sorted discovered paths;
`os.CreateTemp`'s name choice and the fault injection of the apply module
are per-path parameters (`tmp`, `faults`). -/

/-- `cli.Config`. -/
structure Config where
  Pattern : GoStr
  Replace : GoStr
  Regex : Bool
  Literal : Bool
  Glob : GoStr
  Ext : GoStr
  Files : List GoStr
  Yes : Bool
  Interactive : Bool
  Backup : Bool
  DryRun : Bool
  NoColor : Bool
  Context : Nat
  StrictEOL : Bool

/-- The validation half of `cli.parseArgs`, in source order. -/
def validateArgs (cfg : Config) : Option GoStr :=
  if cfg.Pattern = [] ∨ cfg.Replace = [] then
    some (chars "--pattern and --replace are required")
  else if cfg.Regex then
    some (chars "regex mode not yet implemented in MVP; use --literal (default)")
  else if cfg.Yes ∧ cfg.Interactive then
    some (chars "--yes and --interactive are mutually exclusive")
  else if cfg.Glob = [] ∧ cfg.Ext = [] ∧ cfg.Files = [] then
    some (chars "no files specified; use --glob, --ext, or --files")
  else none

/-- The state threaded through `Run`'s loop. -/
structure RunState where
  hadErrors : Bool
  hadChanges : Bool
  stdout : List GoStr
  stderr : List GoStr
  fs : AFS

/-- The `"file: %s  (matches: %d, replacements: %d)\n"` header line. -/
def headerLine (p : GoStr) (m r : Nat) : GoStr :=
  chars "file: " ++ p ++ chars "  (matches: " ++ chars (toString m) ++
    chars ", replacements: " ++ chars (toString r) ++ chars ")" ++ [nlc]

/-- The text of a per-file processor error (`os.ReadFile`'s message is
opaque; the binary message is from the source). -/
def procErrMsg (p : GoStr) : ProcErr → GoStr
  | .readErr => chars "read error"
  | .binaryFile => chars "skipping binary file: " ++ p

/-- One iteration of `Run`'s per-file loop, translated from the source loop
body: substitute (reading through the current file system), skip unchanged
files, diff, skip non-meaningful diffs, print the header, then either print
the preview (dry-run) or apply. -/
def processOne (cfg : Config) (tmp : GoStr → GoStr) (faults : GoStr → Faults)
    (st : RunState) (p : GoStr) : RunState :=
  match SubstituteLiteralFile ((st.fs p).map (·.content)) cfg.Pattern cfg.Replace with
  | .error pe =>
    { st with
        stderr := st.stderr ++
          [chars "warn: " ++ p ++ chars ": " ++ procErrMsg p pe ++ [nlc]],
        hadErrors := true }
  | .ok res =>
    if res.Changed = false then st
    else
      let st1 := { st with hadChanges := true }
      let dres := Diff res.Before res.After ⟨!cfg.NoColor, cfg.Context, cfg.StrictEOL⟩
      if dres.2 = false then st1
      else
        let st2 := { st1 with
          stdout := st1.stdout ++ [headerLine p res.Matches res.Replacements] }
        if cfg.DryRun then
          { st2 with stdout := st2.stdout ++ [dres.1] }
        else
          match WriteAtomic st2.fs p res.After ⟨cfg.Backup, []⟩ (faults p) (tmp p) with
          | (.error e, fs') =>
            { st2 with
                fs := fs',
                stderr := st2.stderr ++
                  [chars "error: apply " ++ p ++ chars ": " ++ applyErrMsg e ++ [nlc]],
                hadErrors := true }
          | (.ok _, fs') => { st2 with fs := fs' }

/-- `cli.Run`: validate the configuration, discover from `"."`, ensure the
deterministic order, fold the per-file loop, surface discovery errors, and
map the flags to the exit code (2 for errors, else 1 for changes, else 0). -/
def Run (cwd : GoStr) (globFn : GoStr → Option (List GoStr))
    (matchFn : GoStr → GoStr → Bool) (tmp : GoStr → GoStr)
    (faults : GoStr → Faults) (cfg : Config) (fs0 : DFS) : RunState × Nat :=
  match validateArgs cfg with
  | some msg => (⟨false, false, [], [msg], fun p => lstatD fs0 p⟩, 2)
  | none =>
    match Discover cwd globFn matchFn (chars ".")
        ⟨cfg.Glob, cfg.Ext, cfg.Files, []⟩ fs0 with
    | .error msg => (⟨false, false, [], [msg], fun p => lstatD fs0 p⟩, 2)
    | .ok (paths, discErrs) =>
      if discErrs ≠ [] ∧ paths = [] then
        (⟨false, false, [], discErrs, fun p => lstatD fs0 p⟩, 2)
      else
        let st0 : RunState := ⟨false, false, [], [], fun p => lstatD fs0 p⟩
        let sorted := paths.insertionSort (· ≤ ·)
        let st1 := sorted.foldl (processOne cfg tmp faults) st0
        let st2 :=
          if discErrs ≠ [] then
            { st1 with stderr := st1.stderr ++ discErrs, hadErrors := true }
          else st1
        (st2, if st2.hadErrors then 2 else if st2.hadChanges then 1 else 0)

/-- Spec-side characterization of "some per-file error occurs during the
loop": the per-file conditions of `processOne`, threading the same
file-system evolution, but computing no output. -/
def loopHadError (cfg : Config) (tmp : GoStr → GoStr)
    (faults : GoStr → Faults) : AFS → List GoStr → Bool
  | _, [] => false
  | fs, p :: rest =>
    match SubstituteLiteralFile ((fs p).map (·.content)) cfg.Pattern cfg.Replace with
    | .error _ => true
    | .ok res =>
      if res.Changed = false then loopHadError cfg tmp faults fs rest
      else if (Diff res.Before res.After
          ⟨!cfg.NoColor, cfg.Context, cfg.StrictEOL⟩).2 = false then
        loopHadError cfg tmp faults fs rest
      else if cfg.DryRun then loopHadError cfg tmp faults fs rest
      else
        match WriteAtomic fs p res.After ⟨cfg.Backup, []⟩ (faults p) (tmp p) with
        | (.error _, _) => true
        | (.ok _, fs') => loopHadError cfg tmp faults fs' rest

/-- Spec-side characterization of "some file's substitution changed its
content byte-for-byte" — the condition under which `Run` reports changes.
Note it does not consult the diff's meaningfulness. -/
def loopHadChange (cfg : Config) (tmp : GoStr → GoStr)
    (faults : GoStr → Faults) : AFS → List GoStr → Bool
  | _, [] => false
  | fs, p :: rest =>
    match SubstituteLiteralFile ((fs p).map (·.content)) cfg.Pattern cfg.Replace with
    | .error _ => loopHadChange cfg tmp faults fs rest
    | .ok res => if res.Changed = false then loopHadChange cfg tmp faults fs rest else true

/-- The single-file tree of the C3 counterexample: `/r/f` holds `"ba\n"`. -/
def fsC3 : DFS := [(chars "/r/f", ⟨FType.regular, chars "ba\n", 420⟩)]

/-- The C3 counterexample configuration: replacing `"a\n"` by `"a"` in
`/r/f` changes the file only by a lone trailing newline; dry-run, strict-EOL
off. -/
def cfgC3 : Config :=
  ⟨chars "a\n", chars "a", false, false, [], [], [chars "/r/f"],
    false, false, false, true, true, 0, false⟩

/-- The C9 witness configuration: apply mode (dry-run off), backup off. -/
def cfgC9 : Config :=
  ⟨chars "a", chars "b", false, false, [], [], [chars "/r/f"],
    false, false, false, false, true, 0, false⟩

/-- The C9 witness tree: `/r/f` holds `"a"`. -/
def fsC9 : DFS := [(chars "/r/f", ⟨FType.regular, chars "a", 420⟩)]

/-- The initial loop state over `fsC9`. -/
def st0C9 : RunState := ⟨false, false, [], [], fun p => lstatD fsC9 p⟩

/-! ## Lemmas about the processor -/

/-- Replacing a pattern by itself is the identity. -/
theorem goReplaceAll_self (pat : GoStr) : ∀ s, goReplaceAll pat pat s = s := by
  intro s
  induction s using goReplaceAll.induct pat pat with
  | case1 x hp => rw [goReplaceAll.eq_def]; simp [hp]
  | case2 hp => rw [goReplaceAll.eq_def]; simp [hp]
  | case3 hp c t hpre ih =>
    obtain ⟨u, hu⟩ := List.isPrefixOf_iff_prefix.mp hpre
    rw [goReplaceAll.eq_def, dif_neg hp]
    simp only [hpre, dif_pos, ih]
    rw [← hu, List.drop_left]
  | case4 hp c t hpre ih =>
    rw [goReplaceAll.eq_def, dif_neg hp]
    simp [hpre, ih]

/-- A non-empty pattern occurring somewhere in `s` is counted at least once. -/
theorem countOcc_pos_of_infix (pat : GoStr) (hp : pat ≠ []) :
    ∀ s, pat <:+: s → 0 < countOcc pat s := by
  intro s
  induction s using countOcc.induct pat with
  | case1 x hpe => exact absurd hpe hp
  | case2 hpe =>
    intro hinf
    rcases List.eq_nil_of_infix_nil hinf with rfl
    exact absurd rfl hp
  | case3 hpe c t hpre _ =>
    intro _
    rw [countOcc.eq_def, dif_neg hpe]
    simp [hpre]
  | case4 hpe c t hpre ih =>
    intro hinf
    rw [countOcc.eq_def, dif_neg hpe]
    simp only [hpre, dif_neg, not_false_iff]
    rcases List.infix_cons_iff.mp hinf with h | h
    · exact absurd (List.isPrefixOf_iff_prefix.mpr h) (by simpa using hpre)
    · simpa [hpre] using ih h

/-! ## Claim theorems for the processor and the diff -/

/-- **C6** — For every file content containing at least one NUL byte, and any
pattern and replacement, `SubstituteLiteralFile` fails with the binary-file
classification and produces no substitution result (and, being a pure
computation over the read content, never writes anything). -/
theorem c6_binary_file_always_fails (data pattern repl : GoStr)
    (hnul : nul ∈ data) :
    SubstituteLiteralFile (some data) pattern repl = .error .binaryFile := by
  simp [SubstituteLiteralFile, hnul]

/-- Witness for C6 at the concrete content `[0x00, 'a']`. -/
theorem c6_binary_file_always_fails_witness :
    nul ∈ [nul, 'a'] ∧
      SubstituteLiteralFile (some [nul, 'a']) (chars "a") (chars "b") =
        .error .binaryFile :=
  ⟨by simp, c6_binary_file_always_fails [nul, 'a'] (chars "a") (chars "b") (by simp)⟩

/-- **C7** — For readable, non-binary content and a non-empty pattern
occurring in it, replacing the pattern by itself yields `Matches > 0`,
`Replacements = Matches`, `Changed = false` and `After = Before`; and in
general, for every successful substitution, `Changed` is true exactly when
the transformed content differs from the original. -/
theorem c7_self_replacement_reports_matches_not_changed :
    (∀ data pattern : GoStr, nul ∉ data → pattern ≠ [] → pattern <:+: data →
      SubstituteLiteralFile (some data) pattern pattern =
          .ok ⟨data, data, countOcc pattern data, countOcc pattern data, false⟩ ∧
        0 < countOcc pattern data) ∧
    (∀ (data pattern repl : GoStr) (res : ProcResult),
      SubstituteLiteralFile (some data) pattern repl = .ok res →
      (res.Changed = true ↔ res.After ≠ res.Before)) := by
  constructor
  · intro data pattern hnul hp hinf
    have hpos := countOcc_pos_of_infix pattern hp data hinf
    have hm : countOcc pattern data ≠ 0 := Nat.pos_iff_ne_zero.mp hpos
    refine ⟨?_, hpos⟩
    simp [SubstituteLiteralFile, hnul, hp, hm, goReplaceAll_self]
  · intro data pattern repl res hok
    by_cases hb : nul ∈ data
    · simp [SubstituteLiteralFile, hb] at hok
    · simp only [SubstituteLiteralFile] at hok
      rw [if_neg (by simpa using hb)] at hok
      by_cases hp : pattern = []
      · rw [if_pos hp] at hok
        cases hok
        simp
      · rw [if_neg hp] at hok
        by_cases hm : countOcc pattern data = 0
        · rw [if_pos hm] at hok
          cases hok
          simp
        · rw [if_neg hm] at hok
          cases hok
          simp only [bne_iff_ne]
          exact ⟨fun h => h.symm, fun h => h.symm⟩

/-- Witness for C7 at content `"foo foo"`, pattern and replacement `"foo"`. -/
theorem c7_self_replacement_witness :
    nul ∉ chars "foo foo" ∧ chars "foo" ≠ [] ∧ chars "foo" <:+: chars "foo foo" ∧
      SubstituteLiteralFile (some (chars "foo foo")) (chars "foo") (chars "foo") =
        .ok ⟨chars "foo foo", chars "foo foo", 2, 2, false⟩ := by
  refine ⟨by decide, by decide, ⟨[], chars " foo", by decide⟩, ?_⟩
  have h := (c7_self_replacement_reports_matches_not_changed.1 (chars "foo foo")
    (chars "foo") (by decide) (by decide) ⟨[], chars " foo", by decide⟩).1
  have hc : countOcc (chars "foo") (chars "foo foo") = 2 := by
    norm_num [chars, countOcc.eq_def]
    decide
  rw [h, hc]

/-- **C4 counterexample** — For `x = "\n"` (a string already ending in a
newline), `Diff(x, x+"\n")` with `StrictEOL = false` does *not* return an
empty preview with no change: both sides end in `'\n'`, so
`equalIgnoringSingleTrailingFinalNL` returns false and a change is reported
(with a header-only preview). -/
theorem c4_trailing_newline_counterexample :
    Diff (chars "\n") (chars "\n\n") ⟨false, 0, false⟩ =
      (chars "--- before\n+++ after\n", true) := by decide

/-- **C4 (amended)** — For every string `x` that does not already end in a
newline, `Diff(x, x+"\n")` with `StrictEOL = false` returns an empty preview
and reports no change; and for every string `x`, `Diff(x, x+"\n")` with
`StrictEOL = true` reports a change. -/
theorem c4_diff_trailing_newline (x : GoStr) (color : Bool) (ctx : Nat) :
    (hasFinalNL x = false →
      Diff x (x ++ [nlc]) ⟨color, ctx, false⟩ = ([], false)) ∧
    (Diff x (x ++ [nlc]) ⟨color, ctx, true⟩).2 = true := by
  have hne : x ≠ x ++ [nlc] := by
    intro h
    have := congrArg List.length h
    simp at this
  constructor
  · intro hx
    have hx' : ¬x.getLast? = some nlc := by simpa [hasFinalNL] using hx
    have heq : equalIgnoringSingleTrailingFinalNL x (x ++ [nlc]) = true := by
      simp only [equalIgnoringSingleTrailingFinalNL, hasFinalNL, trimFinalNL,
        List.getLast?_concat, hne, if_false, if_neg hne]
      simp [hasFinalNL, hx', trimFinalNL, List.getLast?_concat, List.dropLast_concat]
    simp [Diff, heq]
  · simp [Diff, hne]

/-- Witness for C4 (amended) at `x = "a"`. -/
theorem c4_diff_trailing_newline_witness :
    hasFinalNL (chars "a") = false ∧
      Diff (chars "a") (chars "a" ++ [nlc]) ⟨false, 0, false⟩ = ([], false) ∧
      (Diff (chars "a") (chars "a" ++ [nlc]) ⟨false, 0, true⟩).2 = true :=
  ⟨by decide, (c4_diff_trailing_newline (chars "a") false 0).1 (by decide),
    (c4_diff_trailing_newline (chars "a") false 0).2⟩

/-- **C10** — For `before = "a\n\n"` and `after = "a\n"` with
`StrictEOL = false`, `Diff` reports a meaningful change whose preview is
exactly the two header lines, with no `-`/`+` marker lines: at every index
the padded line sequences are both empty or equal. -/
theorem c10_header_only_preview :
    Diff (chars "a\n\n") (chars "a\n") ⟨false, 0, false⟩ =
      (chars "--- before\n+++ after\n", true) := by decide

/-! ## Lemmas about paths and discovery -/

/-- `Char.ofNat` on a valid scalar value round-trips through `toNat`. -/
theorem toNat_ofNat_valid (n : Nat) (hv : Nat.isValidChar n) :
    (Char.ofNat n).toNat = n := by
  rw [Char.ofNat, dif_pos hv]
  simp [Char.ofNatAux, Char.toNat, UInt32.toNat]

/-- ASCII lower-casing maps no character to `'.'` except `'.'` itself. -/
theorem lowerChar_eq_dot_iff (c : Char) : lowerChar c = '.' ↔ c = '.' := by
  unfold lowerChar
  split
  · rename_i h
    have h1 : (65 : Nat) ≤ c.toNat := h.1
    have h2 : c.toNat ≤ 90 := h.2
    constructor
    · intro he
      have hn := congrArg Char.toNat he
      rw [toNat_ofNat_valid _ (Or.inl (by omega))] at hn
      have : c.toNat + 32 = 46 := hn
      omega
    · intro he
      subst he
      simp at h1
  · simp

/-- Lower-casing commutes with stripping one leading dot. -/
theorem lowerStr_trimDot (s : GoStr) :
    lowerStr (trimDotPrefix s) = trimDotPrefix (lowerStr s) := by
  cases s with
  | nil => rfl
  | cons c t =>
    by_cases hc : c = '.'
    · subst hc
      simp [trimDotPrefix, lowerStr, lowerChar_eq_dot_iff]
    · have hlc : lowerChar c ≠ '.' := fun h => hc ((lowerChar_eq_dot_iff c).mp h)
      simp [trimDotPrefix, lowerStr, hc, hlc]

/-- A path made absolute against an absolute working directory is absolute. -/
theorem isAbs_absPath (cwd : GoStr) (hcwd : isAbs cwd = true) (x : GoStr) :
    isAbs (absPath cwd x) = true := by
  rw [absPath]
  split
  · assumption
  · cases cwd with
    | nil => simp [isAbs] at hcwd
    | cons c cs =>
      simp [isAbs] at hcwd ⊢
      simpa [joinPath] using hcwd

/-- On a file system whose paths are distinct, `Lstat` of a listed path finds
that path's entry. -/
theorem lstatD_of_mem : ∀ (fs : DFS), (fs.map Prod.fst).Nodup →
    ∀ p e, (p, e) ∈ fs → lstatD fs p = some e := by
  intro fs
  induction fs with
  | nil => simp
  | cons qd rest ih =>
    intro hnd p e hmem
    obtain ⟨q, d⟩ := qd
    simp only [List.map_cons, List.nodup_cons] at hnd
    rcases List.mem_cons.mp hmem with h | h
    · cases h
      simp [lstatD]
    · have hq : ((q, d).1 == p) = false := by
        simp only [beq_eq_false_iff_ne, ne_eq]
        intro h'
        exact hnd.1 (h' ▸ List.mem_map_of_mem Prod.fst h)
      have hstep : lstatD ((q, d) :: rest) p = lstatD rest p := by
        simp [lstatD, List.find?, hq]
      rw [hstep]
      exact ih hnd.2 p e h

/-- Every path produced by `expandFiles` is absolute and regular. -/
theorem mem_expandFiles {fs : DFS} {cwd root : GoStr} {files : List GoStr}
    {p : GoStr} (hcwd : isAbs cwd = true)
    (h : p ∈ expandFiles fs cwd root files) :
    isAbs p = true ∧ isRegular fs p = true := by
  simp only [expandFiles, List.mem_filterMap] at h
  obtain ⟨f, _, hsome⟩ := h
  split at hsome
  · cases hsome
    exact ⟨isAbs_absPath cwd hcwd _, by assumption⟩
  · cases hsome

/-- Every path produced by `expandGlob` is absolute and regular, given that
`filepath.Glob` returns absolute matches (which it does: the source roots the
pattern before globbing). -/
theorem mem_expandGlob {fs : DFS} {globFn : GoStr → Option (List GoStr)}
    {cwd root pattern p : GoStr} (hcwd : isAbs cwd = true)
    (hglob : ∀ pat ms, globFn pat = some ms → ∀ m ∈ ms, isAbs m = true)
    (h : p ∈ (expandGlob fs globFn cwd root pattern).1) :
    isAbs p = true ∧ isRegular fs p = true := by
  rw [expandGlob] at h
  rcases hg : globFn (if isAbs pattern then pattern else joinPath root pattern) with _ | ms
  · rw [hg] at h
    simp at h
  · rw [hg] at h
    simp only [List.mem_filterMap] at h
    obtain ⟨m, hm, hsome⟩ := h
    split at hsome
    · cases hsome
      have habs := hglob _ _ hg m hm
      rw [absPath, if_pos habs]
      exact ⟨habs, by assumption⟩
    · cases hsome

/-- Every path produced by `expandExt` is absolute and regular, given a
well-formed file system (absolute, distinct paths). -/
theorem mem_expandExt {fs : DFS} {cwd root ext p : GoStr}
    (hcwd : isAbs cwd = true)
    (hkeys : ∀ pe ∈ fs, isAbs pe.1 = true)
    (hnodup : (fs.map Prod.fst).Nodup)
    (h : p ∈ expandExt fs cwd root ext) :
    isAbs p = true ∧ isRegular fs p = true := by
  simp only [expandExt, List.mem_filterMap] at h
  obtain ⟨pe, hpe, hsome⟩ := h
  split at hsome
  · cases hsome
    rename_i hcond
    have habs := hkeys pe hpe
    rw [absPath, if_pos habs]
    refine ⟨habs, ?_⟩
    simp only [Bool.and_eq_true, beq_iff_eq] at hcond
    have hreg : pe.2.ftype = FType.regular := hcond.1.2
    rw [isRegular, lstatD_of_mem fs hnodup pe.1 pe.2 hpe]
    simp [hreg]
  · cases hsome

/-- Extension walks driven by targets that agree after dot-stripping and
lower-casing produce identical results. -/
theorem expandExt_congr (fs : DFS) (cwd root : GoStr) {x y : GoStr}
    (h : lowerStr (trimDotPrefix x) = lowerStr (trimDotPrefix y)) :
    expandExt fs cwd root x = expandExt fs cwd root y := by
  simp only [expandExt]
  rw [h]

/-- The exclude-filtered, deduplicated union in `Discover` never holds
duplicates. -/
theorem keptNodup (mf : GoStr → GoStr → Bool) (root : GoStr)
    (excl : List GoStr) (l : List GoStr) :
    (if excl ≠ [] ∧ l.dedup ≠ [] then applyExcludes mf root l.dedup excl
     else l.dedup).Nodup := by
  split
  · simp only [applyExcludes]
    exact (List.nodup_dedup _).filter _
  · exact List.nodup_dedup _

/-- Membership in the exclude-filtered, deduplicated union implies membership
in the raw union. -/
theorem memOfKept (mf : GoStr → GoStr → Bool) (root : GoStr)
    (excl : List GoStr) (l : List GoStr) {p : GoStr}
    (hp : p ∈ (if excl ≠ [] ∧ l.dedup ≠ [] then applyExcludes mf root l.dedup excl
      else l.dedup)) : p ∈ l := by
  split at hp
  · simp only [applyExcludes, List.mem_filter] at hp
    exact List.mem_dedup.mp hp.1
  · exact List.mem_dedup.mp hp

/-- **C2** — For every root and selector with at least one mechanism set,
a successful `Discover` returns a lexicographically sorted, duplicate-free
list of absolute paths, each of which is a regular file on the file system at
call time (in particular never a symbolic link or a directory, whichever
mechanism matched it).  Hypotheses state the ambient well-formedness the OS
guarantees: the working directory is absolute, the file system lists distinct
absolute paths, and `filepath.Glob` returns absolute matches. -/
theorem c2_discover_sorted_nodup_abs_regular
    (cwd root : GoStr) (globFn : GoStr → Option (List GoStr))
    (matchFn : GoStr → GoStr → Bool) (sel : Selector) (fs : DFS)
    (paths errs : List GoStr)
    (hcwd : isAbs cwd = true)
    (hkeys : ∀ pe ∈ fs, isAbs pe.1 = true)
    (hnodup : (fs.map Prod.fst).Nodup)
    (hglob : ∀ pat ms, globFn pat = some ms → ∀ m ∈ ms, isAbs m = true)
    (hok : Discover cwd globFn matchFn root sel fs = .ok (paths, errs)) :
    List.Sorted (· ≤ ·) paths ∧ paths.Nodup ∧
      ∀ p ∈ paths, isAbs p = true ∧ isRegular fs p = true := by
  simp only [Discover] at hok
  split at hok
  · cases hok
  · simp only [Except.ok.injEq, Prod.mk.injEq] at hok
    obtain ⟨h1, -⟩ := hok
    subst h1
    refine ⟨List.sorted_insertionSort _ _, ?_, ?_⟩
    · exact ((List.perm_insertionSort _ _).symm).nodup (keptNodup _ _ _ _)
    · intro p hp
      replace hp := (List.perm_insertionSort _ _).mem_iff.mp hp
      replace hp := memOfKept _ _ _ _ hp
      rcases List.mem_append.mp hp with hpa | hpe
      · rcases List.mem_append.mp hpa with hpf | hpg
        · split at hpf
          · exact mem_expandFiles hcwd hpf
          · cases hpf
        · split at hpg
          · exact mem_expandGlob hcwd hglob hpg
          · cases hpg
      · split at hpe
        · exact mem_expandExt hcwd hkeys hnodup hpe
        · cases hpe

/-- Witness for C2: all three mechanisms overlap on `/r/a.txt`, the symlink
`/r/l.txt` is matched by the glob, the extension filter and the explicit
list, and the directory `/r/d.txt` ends in `.txt`; the output is the two
regular files, sorted, without duplicates. -/
theorem c2_discover_witness :
    Discover (chars "/r") globFnC2 (fun _ _ => false) []
        ⟨chars "*.txt", chars "txt", [chars "a.txt", chars "l.txt", chars "d.txt"], []⟩ fsC2 =
      .ok ([chars "/r/a.txt", chars "/r/b.TXT"], []) ∧
    (List.Sorted (· ≤ ·) [chars "/r/a.txt", chars "/r/b.TXT"] ∧
      [chars "/r/a.txt", chars "/r/b.TXT"].Nodup ∧
      ∀ p ∈ [chars "/r/a.txt", chars "/r/b.TXT"],
        isAbs p = true ∧ isRegular fsC2 p = true) := by
  have hok : Discover (chars "/r") globFnC2 (fun _ _ => false) []
      ⟨chars "*.txt", chars "txt", [chars "a.txt", chars "l.txt", chars "d.txt"], []⟩ fsC2 =
      .ok ([chars "/r/a.txt", chars "/r/b.TXT"], []) := by rfl
  refine ⟨hok, ?_⟩
  exact c2_discover_sorted_nodup_abs_regular (chars "/r") [] globFnC2 (fun _ _ => false)
    ⟨chars "*.txt", chars "txt", [chars "a.txt", chars "l.txt", chars "d.txt"], []⟩ fsC2
    [chars "/r/a.txt", chars "/r/b.TXT"] []
    (by decide) (by decide) (by decide)
    (by intro pat ms hms
        simp only [globFnC2, Option.some.injEq] at hms
        subst hms
        decide)
    hok

/-- **C8** — Two extension selectors equal up to one leading dot and ASCII
case make `Discover` return exactly the same result: the extension comparison
strips a leading dot and lower-cases both sides. -/
theorem c8_ext_case_and_dot_insensitive
    (cwd root : GoStr) (globFn : GoStr → Option (List GoStr))
    (matchFn : GoStr → GoStr → Bool) (fs : DFS) (excl : List GoStr)
    (e₁ e₂ : GoStr)
    (h : lowerStr (trimDotPrefix e₁) = lowerStr (trimDotPrefix e₂)) :
    Discover cwd globFn matchFn root ⟨[], e₁, [], excl⟩ fs =
      Discover cwd globFn matchFn root ⟨[], e₂, [], excl⟩ fs := by
  have hemp : trimDotPrefix e₁ = [] ↔ trimDotPrefix e₂ = [] := by
    constructor <;> intro he
    · have h2 : lowerStr (trimDotPrefix e₂) = [] := by rw [← h, he]; rfl
      exact List.map_eq_nil.mp h2
    · have h2 : lowerStr (trimDotPrefix e₁) = [] := by rw [h, he]; rfl
      exact List.map_eq_nil.mp h2
  have htgt : lowerStr (trimDotPrefix (trimDotPrefix e₁)) =
      lowerStr (trimDotPrefix (trimDotPrefix e₂)) := by
    rw [lowerStr_trimDot (trimDotPrefix e₁), lowerStr_trimDot (trimDotPrefix e₂), h]
  by_cases hc : trimDotPrefix e₁ = []
  · have hc2 : trimDotPrefix e₂ = [] := hemp.mp hc
    simp [Discover, normalizeSel, hc, hc2]
  · have hc2 : trimDotPrefix e₂ ≠ [] := fun hx => hc (hemp.mpr hx)
    have hx := expandExt_congr fs cwd
      (if isAbs (if root = [] then chars "." else root) then (if root = [] then chars "." else root)
       else if (if root = [] then chars "." else root) = chars "." then cwd
       else joinPath cwd (if root = [] then chars "." else root)) htgt
    simp only [Discover, normalizeSel]
    rw [hx]
    simp [hc, hc2]

/-- Witness for C8: `Ext = "txt"` and `Ext = ".TXT"` discover the same files
on the sample file system. -/
theorem c8_ext_witness :
    lowerStr (trimDotPrefix (chars "txt")) = lowerStr (trimDotPrefix (chars ".TXT")) ∧
      Discover (chars "/r") globFnC2 (fun _ _ => false) []
          ⟨[], chars "txt", [], []⟩ fsC2 =
        Discover (chars "/r") globFnC2 (fun _ _ => false) []
          ⟨[], chars ".TXT", [], []⟩ fsC2 :=
  ⟨by decide,
    c8_ext_case_and_dot_insensitive (chars "/r") [] globFnC2 (fun _ _ => false)
      fsC2 [] (chars "txt") (chars ".TXT") (by decide)⟩

/-! ## Lemmas about the apply module -/

/-- `uniqueBackupPath` only ever returns a name that does not exist. -/
theorem uniqueBackupPath_fresh (fs : AFS) (dir base suffix p : GoStr)
    (h : uniqueBackupPath fs dir base suffix = .ok p) : fs p = none := by
  rw [uniqueBackupPath] at h
  split at h
  · cases h
    assumption
  · split at h
    · rename_i p' hfind
      cases h
      obtain ⟨j, -, hfj⟩ := List.exists_of_findSome?_eq_some hfind
      dsimp only at hfj
      split at hfj
      · cases hfj
        assumption
      · cases hfj
    · cases h

/-- The backup phase changes nothing at a path that either already exists or
is distinct from the chosen backup name. -/
theorem backupPhase_untouched
    (fs : AFS) (dir base path : GoStr) (mode : Nat) (opts : AOptions)
    (f : Faults) (r : Except ApplyErr Unit) (fs₁ : AFS)
    (h : backupPhase fs dir base path mode opts f = (r, fs₁)) (q : GoStr)
    (hq : fs q ≠ none ∨
      ∀ bp, uniqueBackupPath fs dir base (defaultedSuffix opts) = .ok bp → q ≠ bp) :
    fs₁ q = fs q := by
  rw [backupPhase] at h
  split at h
  · split at h
    · cases h
      rfl
    · rename_i bp hu
      have hbpfree : fs bp = none := uniqueBackupPath_fresh _ _ _ _ _ hu
      have hqbp : q ≠ bp := by
        rcases hq with hq | hq
        · intro hqq
          exact hq (hqq ▸ hbpfree)
        · exact hq bp hu
      simp only [copyFile] at h
      split at h
      · cases h
        rfl
      · split at h
        · cases h
          simp [fsInsert, hqbp]
        · cases h
          simp [fsInsert, hqbp]
  · cases h
    rfl

/-- **C1** — Whenever `WriteAtomic` fails at any stage before the final
rename succeeds, the target path's entry (content and permission bits) is
exactly what it was before the call and the temporary file does not exist
afterwards; and the error determines the failing stage (the message prefixes
of the stages are pairwise distinct).  The hypotheses are `os.CreateTemp`'s
contract: the temporary name it returns did not exist, so it differs from
the target and from the backup name chosen before it. -/
theorem c1_writeAtomic_failure_preserves_target
    (fs : AFS) (path data : GoStr) (opts : AOptions) (f : Faults)
    (tmpName : GoStr) (e : ApplyErr) (fs' : AFS)
    (htmp0 : fs tmpName = none)
    (htmp1 : ∀ bp, uniqueBackupPath fs (dirName path) (baseName path)
        (defaultedSuffix opts) = .ok bp → tmpName ≠ bp)
    (herr : WriteAtomic fs path data opts f tmpName = (.error e, fs')) :
    fs' path = fs path ∧ fs' tmpName = none ∧
      ∀ e₁ e₂ : ApplyErr, applyErrMsg e₁ = applyErrMsg e₂ → e₁ = e₂ := by
  have hmain : fs' path = fs path ∧ fs' tmpName = none := by
    rcases hstat : fs path with - | orig
    · rw [WriteAtomic.eq_def, hstat] at herr
      dsimp only at herr
      cases herr
      exact ⟨hstat, htmp0⟩
    · cases hsf : f.statFail with
      | true =>
        rw [WriteAtomic.eq_def, hstat, hsf] at herr
        dsimp only at herr
        cases herr
        exact ⟨hstat, htmp0⟩
      | false =>
        rw [WriteAtomic.eq_def, hstat, hsf] at herr
        dsimp only at herr
        rcases hbp : backupPhase fs (dirName path) (baseName path) path orig.mode opts f
          with ⟨rb, fs₁⟩
        rw [hbp] at herr
        have hU := backupPhase_untouched fs _ _ path orig.mode opts f _ _ hbp
        have hfs1path : fs₁ path = fs path := hU path (Or.inl (by rw [hstat]; simp))
        have hfs1tmp : fs₁ tmpName = none := by
          rw [hU tmpName (Or.inr htmp1)]
          exact htmp0
        have hpt : path ≠ tmpName := by
          intro hh
          rw [hh, htmp0] at hstat
          cases hstat
        rcases rb with e' | u
        · dsimp only at herr
          cases herr
          exact ⟨hfs1path.trans hstat, hfs1tmp⟩
        · dsimp only at herr
          cases htc : f.tempCreateFail with
          | true =>
            rw [htc] at herr
            simp only [if_true] at herr
            cases herr
            exact ⟨hfs1path.trans hstat, hfs1tmp⟩
          | false =>
            rw [htc] at herr
            simp only [Bool.false_eq_true, if_false] at herr
            rcases hwf : f.writeFail with - | part
            · rw [hwf] at herr
              dsimp only at herr
              cases hcm : f.chmodFail with
              | true =>
                rw [hcm] at herr
                simp only [if_true] at herr
                cases herr
                exact ⟨by simp [fsErase, fsInsert, hpt, hfs1path, hstat], by simp [fsErase]⟩
              | false =>
                rw [hcm] at herr
                simp only [Bool.false_eq_true, if_false] at herr
                cases hsy : f.syncFail with
                | true =>
                  rw [hsy] at herr
                  simp only [if_true] at herr
                  cases herr
                  exact ⟨by simp [fsErase, fsInsert, hpt, hfs1path, hstat], by simp [fsErase]⟩
                | false =>
                  rw [hsy] at herr
                  simp only [Bool.false_eq_true, if_false] at herr
                  cases hcl : f.closeFail with
                  | true =>
                    rw [hcl] at herr
                    simp only [if_true] at herr
                    cases herr
                    exact ⟨by simp [fsErase, fsInsert, hpt, hfs1path, hstat], by simp [fsErase]⟩
                  | false =>
                    rw [hcl] at herr
                    simp only [Bool.false_eq_true, if_false] at herr
                    cases hrn : f.renameFail with
                    | true =>
                      rw [hrn] at herr
                      simp only [if_true] at herr
                      cases herr
                      exact ⟨by simp [fsErase, fsInsert, hpt, hfs1path, hstat], by simp [fsErase]⟩
                    | false =>
                      rw [hrn] at herr
                      simp only [Bool.false_eq_true, if_false] at herr
                      cases herr
            · rw [hwf] at herr
              dsimp only at herr
              cases herr
              exact ⟨by simp [fsErase, fsInsert, hpt, hfs1path, hstat], by simp [fsErase]⟩
  exact ⟨hmain.1, hmain.2, by decide⟩

/-- Witness for C1: with every stage healthy except the final rename,
`WriteAtomic` fails at the rename and leaves the target `/d/f` untouched and
the temporary file absent. -/
theorem c1_writeAtomic_failure_witness :
    fsW (chars "/d/f.tmp-1") = none ∧
      (WriteAtomic fsW (chars "/d/f") (chars "new") ⟨true, []⟩ faultsRename
          (chars "/d/f.tmp-1")).2 (chars "/d/f") = fsW (chars "/d/f") ∧
      (WriteAtomic fsW (chars "/d/f") (chars "new") ⟨true, []⟩ faultsRename
          (chars "/d/f.tmp-1")).2 (chars "/d/f.tmp-1") = none := by
  have herr : WriteAtomic fsW (chars "/d/f") (chars "new") ⟨true, []⟩ faultsRename
      (chars "/d/f.tmp-1") =
      (.error .renameErr,
        (WriteAtomic fsW (chars "/d/f") (chars "new") ⟨true, []⟩ faultsRename
          (chars "/d/f.tmp-1")).2) :=
    Prod.ext (by rfl) rfl
  have h := c1_writeAtomic_failure_preserves_target fsW (chars "/d/f") (chars "new")
    ⟨true, []⟩ faultsRename (chars "/d/f.tmp-1") .renameErr _
    (by rfl)
    (by intro bp hbp
        have hu : uniqueBackupPath fsW (dirName (chars "/d/f")) (baseName (chars "/d/f"))
            (defaultedSuffix ⟨true, []⟩) = .ok (chars "/d/f.bak") := by rfl
        rw [hu] at hbp
        cases hbp
        decide)
    herr
  exact ⟨by rfl, h.1, h.2.1⟩

/-- **C5** — `WriteAtomic` with `Backup = true` never overwrites an existing
file when choosing the backup path: (1) `uniqueBackupPath` only returns a
non-existing name (candidates `name+suffix`, then `name+suffix.1`,
`name+suffix.2`, …); (2) when the plain candidate and all 999 numbered
probes already exist, `WriteAtomic` fails with the backup-stage error and
changes nothing — no backup is written; (3) two consecutive backed-up writes
to `/d/f` succeed and produce `/d/f.bak` (holding the original content and
mode) and then `/d/f.bak.1` (holding the first write's content), leaving the
first backup intact. -/
theorem c5_backup_unique_naming :
    (∀ (fs : AFS) (dir base suffix p : GoStr),
      uniqueBackupPath fs dir base suffix = .ok p → fs p = none) ∧
    (∀ (fs : AFS) (path data : GoStr) (opts : AOptions) (f : Faults)
      (tmpName : GoStr),
      fs path ≠ none → opts.Backup = true → f.statFail = false →
      fs (joinPath (dirName path) (baseName path ++ defaultedSuffix opts)) ≠ none →
      (∀ i, 1 ≤ i → i ≤ 999 →
        fs (joinPath (dirName path)
          (baseName path ++ defaultedSuffix opts ++ '.' :: chars (toString i))) ≠ none) →
      WriteAtomic fs path data opts f tmpName = (.error .backupErr, fs)) ∧
    (firstWriteC5.1 = .ok () ∧
      firstWriteC5.2 (chars "/d/f.bak") = some ⟨.regular, chars "old", 420⟩ ∧
      secondWriteC5.1 = .ok () ∧
      secondWriteC5.2 (chars "/d/f.bak.1") = some ⟨.regular, chars "new", 420⟩ ∧
      secondWriteC5.2 (chars "/d/f.bak") = some ⟨.regular, chars "old", 420⟩ ∧
      secondWriteC5.2 (chars "/d/f") = some ⟨.regular, chars "kew", 420⟩) := by
  refine ⟨fun fs dir base suffix p h => uniqueBackupPath_fresh fs dir base suffix p h,
    ?_, by rfl, by rfl, by rfl, by rfl, by rfl, by rfl⟩
  intro fs path data opts f tmpName horig hB hsf hcand hi
  rcases hfp : fs path with - | orig
  · exact absurd hfp horig
  · have hu : uniqueBackupPath fs (dirName path) (baseName path)
        (defaultedSuffix opts) = .error .backupErr := by
      rw [uniqueBackupPath]
      rw [if_neg hcand]
      have hnone : (List.range 999).findSome? (fun j =>
          let p := joinPath (dirName path)
            (baseName path ++ defaultedSuffix opts ++ '.' :: chars (toString (j + 1)));
          if fs p = none then some p else none) = none := by
        rw [List.findSome?_eq_none]
        intro j hj
        dsimp only
        rw [if_neg (hi (j + 1) (by omega) (by have := List.mem_range.mp hj; omega))]
      rw [hnone]
    have hbp : backupPhase fs (dirName path) (baseName path) path orig.mode opts f =
        (.error .backupErr, fs) := by
      rw [backupPhase]
      simp only [hB, if_true, hu]
    rw [WriteAtomic.eq_def, hfp, hsf]
    dsimp only
    rw [hbp]

/-- Witness for C5: part (1) applied to the sample file system (the chosen
backup name `/d/f.bak` indeed does not exist there), and part (2) applied to
a file system where every name is taken (the write fails at the backup stage
and the file system is returned unchanged). -/
theorem c5_backup_unique_naming_witness :
    (uniqueBackupPath fsW (chars "/d") (chars "f") (chars ".bak") =
        .ok (chars "/d/f.bak") ∧
      fsW (chars "/d/f.bak") = none) ∧
    (fsAll (chars "/d/f") ≠ none ∧
      WriteAtomic fsAll (chars "/d/f") (chars "x") ⟨true, []⟩ noFaults (chars "/t") =
        (.error .backupErr, fsAll)) :=
  ⟨⟨by rfl,
    c5_backup_unique_naming.1 fsW (chars "/d") (chars "f") (chars ".bak")
      (chars "/d/f.bak") (by rfl)⟩,
   ⟨by simp [fsAll],
    c5_backup_unique_naming.2.1 fsAll (chars "/d/f") (chars "x") ⟨true, []⟩ noFaults
      (chars "/t") (by simp [fsAll]) rfl rfl (by simp [fsAll])
      (fun i _ _ => by simp [fsAll])⟩⟩

/-! ## Lemmas about Run -/

/-- The loop's accumulated flags are the initial flags joined with the
spec-side per-file characterizations. -/
theorem foldl_processOne_flags (cfg : Config) (tmp : GoStr → GoStr)
    (faults : GoStr → Faults) :
    ∀ (l : List GoStr) (st : RunState),
      ((l.foldl (processOne cfg tmp faults) st).hadErrors
        = (st.hadErrors || loopHadError cfg tmp faults st.fs l)) ∧
      ((l.foldl (processOne cfg tmp faults) st).hadChanges
        = (st.hadChanges || loopHadChange cfg tmp faults st.fs l)) := by
  intro l
  induction l with
  | nil =>
    intro st
    simp [loopHadError, loopHadChange]
  | cons p rest ih =>
    intro st
    simp only [List.foldl_cons, loopHadError, loopHadChange]
    rcases hsub : SubstituteLiteralFile ((st.fs p).map (·.content))
        cfg.Pattern cfg.Replace with pe | res
    · simp only [processOne, hsub]
      rw [(ih _).1, (ih _).2]
      simp
    · simp only [processOne, hsub]
      cases hch : res.Changed with
      | false =>
        simp only [if_pos (show (false = false) from rfl)]
        exact ih st
      | true =>
        simp only [if_neg (show ¬(true = false) from by decide)]
        cases hdv : (Diff res.Before res.After
            ⟨!cfg.NoColor, cfg.Context, cfg.StrictEOL⟩).2 with
        | false =>
          simp only [if_pos (show (false = false) from rfl)]
          rw [(ih _).1, (ih _).2]
          simp
        | true =>
          simp only [if_neg (show ¬(true = false) from by decide)]
          cases hdry : cfg.DryRun with
          | true =>
            simp only [if_pos (show (true = true) from rfl)]
            rw [(ih _).1, (ih _).2]
            simp
          | false =>
            simp only [if_neg (show ¬(false = true) from by decide)]
            rcases hw : WriteAtomic st.fs p res.After ⟨cfg.Backup, []⟩ (faults p) (tmp p)
              with ⟨rw', fs'⟩
            rcases rw' with e | u
            · dsimp only
              rw [(ih _).1, (ih _).2]
              simp
            · dsimp only
              rw [(ih _).1, (ih _).2]
              simp

/-- **C3 (amended)** — The exit code of `Run` is 2 exactly when any error
occurred (validation, discovery — fatal or aggregated — or any per-file
read/binary/apply error), taking precedence over changes; otherwise 1 when
at least one file's substitution changed its content *byte-for-byte*
(`res.Changed`, which does not consult the diff's meaningfulness, so a file
differing only by a lone trailing newline also yields exit code 1);
otherwise 0. -/
theorem c3_exit_code_policy (cwd : GoStr) (globFn : GoStr → Option (List GoStr))
    (matchFn : GoStr → GoStr → Bool) (tmp : GoStr → GoStr)
    (faults : GoStr → Faults) (cfg : Config) (fs0 : DFS) :
    (Run cwd globFn matchFn tmp faults cfg fs0).2 =
      (match validateArgs cfg with
       | some _ => 2
       | none =>
         match Discover cwd globFn matchFn (chars ".")
             ⟨cfg.Glob, cfg.Ext, cfg.Files, []⟩ fs0 with
         | .error _ => 2
         | .ok (paths, discErrs) =>
           if discErrs ≠ [] then 2
           else if loopHadError cfg tmp faults (fun p => lstatD fs0 p)
               (paths.insertionSort (· ≤ ·)) then 2
           else if loopHadChange cfg tmp faults (fun p => lstatD fs0 p)
               (paths.insertionSort (· ≤ ·)) then 1
           else 0) := by
  rw [Run.eq_def]
  rcases hv : validateArgs cfg with - | msg
  · dsimp only
    rcases hd : Discover cwd globFn matchFn (chars ".")
        ⟨cfg.Glob, cfg.Ext, cfg.Files, []⟩ fs0 with msg' | pr
    · dsimp only
    · obtain ⟨paths, discErrs⟩ := pr
      dsimp only
      by_cases hde : discErrs = []
      · subst hde
        rw [if_neg (by simp)]
        rw [if_neg (by simp)]
        dsimp only
        have hf := foldl_processOne_flags cfg tmp faults (paths.insertionSort (· ≤ ·))
          ⟨false, false, [], [], fun p => lstatD fs0 p⟩
        simp only at hf
        rw [hf.1, hf.2]
        simp
      · rw [if_pos hde]
        by_cases hp : paths = []
        · rw [if_pos ⟨hde, hp⟩]
          simp [hde]
        · rw [if_neg (by intro h; exact hp h.2)]
          dsimp only
          rw [if_pos hde]
          simp
  · dsimp only

/-- **C3 counterexample** — A run on a single file whose substitution result
differs from the original only by a lone trailing newline (strict-EOL off,
dry-run) exits with code 1 even though nothing is printed and nothing would
be applied — refuting the claim that such a file does not by itself cause
exit code 1. -/
theorem c3_trailing_newline_causes_exit1 :
    (Run (chars "/r") (fun _ => some []) (fun _ _ => false)
        (fun p => p ++ chars ".tmp") (fun _ => noFaults) cfgC3 fsC3).2 = 1 ∧
    (Run (chars "/r") (fun _ => some []) (fun _ _ => false)
        (fun p => p ++ chars ".tmp") (fun _ => noFaults) cfgC3 fsC3).1.stdout = [] ∧
    (Run (chars "/r") (fun _ => some []) (fun _ _ => false)
        (fun p => p ++ chars ".tmp") (fun _ => noFaults) cfgC3 fsC3).1.stderr = [] := by
  have hsub : SubstituteLiteralFile (some (chars "ba\n")) (chars "a\n") (chars "a") =
      .ok ⟨chars "ba\n", chars "ba", 1, 1, true⟩ := by
    norm_num [SubstituteLiteralFile, chars, countOcc.eq_def, goReplaceAll.eq_def]
    decide
  have hstep : ∀ st : RunState, st.fs = (fun p => lstatD fsC3 p) →
      processOne cfgC3 (fun p => p ++ chars ".tmp") (fun _ => noFaults) st (chars "/r/f") =
        { st with hadChanges := true } := by
    intro st hfs
    have hread : SubstituteLiteralFile ((st.fs (chars "/r/f")).map (·.content))
        cfgC3.Pattern cfgC3.Replace =
        .ok ⟨chars "ba\n", chars "ba", 1, 1, true⟩ := by
      rw [hfs]
      exact hsub
    rw [processOne, hread]
    have hdiff : Diff (chars "ba\n") (chars "ba") ⟨false, 0, false⟩ = ([], false) := by rfl
    norm_num [cfgC3, hdiff]
  rw [Run.eq_def]
  have hv : validateArgs cfgC3 = none := by rfl
  rw [hv]
  dsimp only
  have hd : Discover (chars "/r") (fun _ => some []) (fun _ _ => false) (chars ".")
      ⟨cfgC3.Glob, cfgC3.Ext, cfgC3.Files, []⟩ fsC3 = .ok ([chars "/r/f"], []) := by rfl
  rw [hd]
  dsimp only
  rw [if_neg (by simp)]
  have hsort : (([chars "/r/f"] : List GoStr).insertionSort (· ≤ ·)) = [chars "/r/f"] := rfl
  rw [hsort]
  simp only [List.foldl_cons, List.foldl_nil]
  rw [hstep ⟨false, false, [], [], fun p => lstatD fsC3 p⟩ rfl]
  simp

/-- In apply mode, one loop iteration can add only the header line to
standard output (never a diff preview body). -/
theorem processOne_stdout_apply (cfg : Config) (tmp : GoStr → GoStr)
    (faults : GoStr → Faults) (hdry : cfg.DryRun = false)
    (st : RunState) (p : GoStr) :
    ∀ x ∈ (processOne cfg tmp faults st p).stdout,
      x ∈ st.stdout ∨ ∃ q m r, x = headerLine q m r := by
  intro x hx
  rw [processOne] at hx
  rcases hsub : SubstituteLiteralFile ((st.fs p).map (·.content))
      cfg.Pattern cfg.Replace with pe | res
  · rw [hsub] at hx
    dsimp only at hx
    exact Or.inl hx
  · rw [hsub] at hx
    dsimp only at hx
    cases hch : res.Changed with
    | false =>
      rw [hch, if_pos rfl] at hx
      exact Or.inl hx
    | true =>
      rw [hch, if_neg (by decide)] at hx
      cases hdv : (Diff res.Before res.After
          ⟨!cfg.NoColor, cfg.Context, cfg.StrictEOL⟩).2 with
      | false =>
        rw [hdv, if_pos rfl] at hx
        exact Or.inl hx
      | true =>
        rw [hdv, if_neg (by decide)] at hx
        rw [hdry, if_neg (by decide)] at hx
        rcases hw : WriteAtomic st.fs p res.After ⟨cfg.Backup, []⟩ (faults p) (tmp p)
          with ⟨rw', fs'⟩
        rw [hw] at hx
        rcases rw' with e | u <;>
          · dsimp only at hx
            rcases List.mem_append.mp hx with h | h
            · exact Or.inl h
            · exact Or.inr ⟨p, res.Matches, res.Replacements, by simpa using h⟩

/-- In apply mode, the loop only ever builds header lines on standard
output. -/
theorem foldl_stdout_headers (cfg : Config) (tmp : GoStr → GoStr)
    (faults : GoStr → Faults) (hdry : cfg.DryRun = false) :
    ∀ (l : List GoStr) (st : RunState),
      (∀ x ∈ st.stdout, ∃ q m r, x = headerLine q m r) →
      ∀ x ∈ (l.foldl (processOne cfg tmp faults) st).stdout,
        ∃ q m r, x = headerLine q m r := by
  intro l
  induction l with
  | nil =>
    intro st h
    simpa using h
  | cons p rest ih =>
    intro st h
    simp only [List.foldl_cons]
    refine ih _ (fun x hx => ?_)
    rcases processOne_stdout_apply cfg tmp faults hdry st p x hx with h1 | h1
    · exact h x h1
    · exact h1

/-- **C9** — In non-dry-run mode, (i) everything `Run` writes to standard
output is a per-file header line — the diff preview body is printed only in
dry-run mode — and (ii) for every file whose substitution produced a
meaningful change, the loop body writes exactly the header line to standard
output before (and regardless of the outcome of) the apply step. -/
theorem c9_header_still_printed_in_apply_mode
    (cwd : GoStr) (globFn : GoStr → Option (List GoStr))
    (matchFn : GoStr → GoStr → Bool) (tmp : GoStr → GoStr)
    (faults : GoStr → Faults) (cfg : Config) (fs0 : DFS)
    (hdry : cfg.DryRun = false) :
    (∀ x ∈ (Run cwd globFn matchFn tmp faults cfg fs0).1.stdout,
      ∃ q m r, x = headerLine q m r) ∧
    (∀ (st : RunState) (p : GoStr) (res : ProcResult),
      SubstituteLiteralFile ((st.fs p).map (·.content)) cfg.Pattern cfg.Replace =
        .ok res →
      res.Changed = true →
      (Diff res.Before res.After ⟨!cfg.NoColor, cfg.Context, cfg.StrictEOL⟩).2 = true →
      (processOne cfg tmp faults st p).stdout =
        st.stdout ++ [headerLine p res.Matches res.Replacements]) := by
  constructor
  · rw [Run.eq_def]
    rcases hv : validateArgs cfg with - | msg
    · dsimp only
      rcases hd : Discover cwd globFn matchFn (chars ".")
          ⟨cfg.Glob, cfg.Ext, cfg.Files, []⟩ fs0 with msg' | pr
      · dsimp only
        simp
      · obtain ⟨paths, discErrs⟩ := pr
        dsimp only
        by_cases hcond : discErrs ≠ [] ∧ paths = []
        · rw [if_pos hcond]
          simp
        · rw [if_neg hcond]
          dsimp only
          intro x hx
          have hx' : x ∈ ((paths.insertionSort (· ≤ ·)).foldl
              (processOne cfg tmp faults)
              ⟨false, false, [], [], fun p => lstatD fs0 p⟩).stdout := by
            by_cases hde : discErrs = []
            · simpa [hde] using hx
            · simpa [hde] using hx
          exact foldl_stdout_headers cfg tmp faults hdry _ _ (by simp) x hx'
    · dsimp only
      simp
  · intro st p res hsub hch hdv
    rw [processOne, hsub]
    dsimp only
    rw [hch, if_neg (by decide)]
    rw [hdv, if_neg (by decide)]
    rw [hdry, if_neg (by decide)]
    rcases hw : WriteAtomic st.fs p res.After ⟨cfg.Backup, []⟩ (faults p) (tmp p)
      with ⟨rw', fs'⟩
    rcases rw' with e | u <;> rfl

/-- Witness for C9: in apply mode on `/r/f` = `"a"`, pattern `"a"` →
`"b"`, the loop body's standard output is exactly the header line. -/
theorem c9_header_witness :
    cfgC9.DryRun = false ∧
      (processOne cfgC9 (fun p => p ++ chars ".tmp") (fun _ => noFaults) st0C9
          (chars "/r/f")).stdout =
        [] ++ [headerLine (chars "/r/f") 1 1] := by
  have hsub : SubstituteLiteralFile ((st0C9.fs (chars "/r/f")).map (·.content))
      cfgC9.Pattern cfgC9.Replace =
      .ok ⟨chars "a", chars "b", 1, 1, true⟩ := by
    have h0 : (st0C9.fs (chars "/r/f")).map (·.content) = some (chars "a") := by rfl
    have h1 : cfgC9.Pattern = chars "a" := rfl
    have h2 : cfgC9.Replace = chars "b" := rfl
    rw [h0, h1, h2]
    norm_num [SubstituteLiteralFile, chars, countOcc.eq_def, goReplaceAll.eq_def]
    decide
  refine ⟨rfl, ?_⟩
  have h := (c9_header_still_printed_in_apply_mode (chars "/r") (fun _ => some [])
      (fun _ _ => false) (fun p => p ++ chars ".tmp") (fun _ => noFaults) cfgC9 fsC9
      rfl).2 st0C9 (chars "/r/f") ⟨chars "a", chars "b", 1, 1, true⟩ hsub rfl (by rfl)
  simpa [st0C9] using h

end SafeReplace
